import Mathlib

/-!
Shallow embedding of the parsing/reconciliation core of
`scripts/latest_version.py`.

Python strings are modelled as `List Char`; the Python string operations
used by the source (`strip`, `splitlines`, `find`, slicing, `split`,
`' '.join`, `encode('ascii','ignore')`, `replace`, `isdigit`,
`startswith`) are defined below with Python's semantics.  The two parsers
`parse_winget_list_output` and `parse_winget_upgrade_output` and the
reconciler `merge_installed_with_upgradable` are then translated
line by line.  The one Python operation that can raise (`line[name_start]`)
is modelled as an `Option`-valued indexing, so the parsers come in a
checked variant returning `Option` (`none` = a Python exception would be
raised) and a total wrapper.
-/

namespace PatchSystem

/-- Python line-boundary characters recognised by `str.splitlines`. -/
def isPyLineBoundary (c : Char) : Bool :=
  c = '\n' || c = '\r' || c = '\x0b' || c = '\x0c' ||
  c = '\x1c' || c = '\x1d' || c = '\x1e' || c = '\x85' ||
  c = '\u2028' || c = '\u2029'

/-- Python whitespace characters (`str.isspace`), the class used by
`str.strip()` and `str.split()` with no arguments.  Every line boundary
is whitespace. -/
def isPySpace (c : Char) : Bool :=
  isPyLineBoundary c || c = ' ' || c = '\t' || c = '\x1f' ||
  c = '\xa0' || c = '\u1680' ||
  (0x2000 ≤ c.toNat && c.toNat ≤ 0x200a) ||
  c = '\u202f' || c = '\u205f' || c = '\u3000'

/-- Python `str.strip()`: remove leading and trailing whitespace. -/
def pyStrip (s : List Char) : List Char :=
  ((s.dropWhile isPySpace).reverse.dropWhile isPySpace).reverse

/-- Worker for `pySplitlines`; `acc` holds the current line reversed and
the Bool flag records whether the previous character was a `'\r'` (so that
a directly following `'\n'` is part of the same `"\r\n"` boundary).
A final empty segment is not emitted (Python: `"a\n".splitlines() = ["a"]`,
`"".splitlines() = []`). -/
def splitlinesAux : Bool → List Char → List Char → List (List Char)
  | _, [], acc => if acc.isEmpty then [] else [acc.reverse]
  | afterCR, c :: rest, acc =>
    if afterCR && c = '\n' then splitlinesAux false rest acc
    else if c = '\r' then acc.reverse :: splitlinesAux true rest []
    else if isPyLineBoundary c then acc.reverse :: splitlinesAux false rest []
    else splitlinesAux false rest (c :: acc)

/-- Python `str.splitlines()`. -/
def pySplitlines (s : List Char) : List (List Char) :=
  splitlinesAux false s []

/-- Worker for `pySplitWS`; empty tokens are never emitted. -/
def splitWSAux : List Char → List Char → List (List Char)
  | [], acc => if acc.isEmpty then [] else [acc.reverse]
  | c :: rest, acc =>
    if isPySpace c then
      if acc.isEmpty then splitWSAux rest []
      else acc.reverse :: splitWSAux rest []
    else splitWSAux rest (c :: acc)

/-- Python `str.split()` with no arguments: split on whitespace runs,
dropping empty tokens. -/
def pySplitWS (s : List Char) : List (List Char) :=
  splitWSAux s []

/-- Python `' '.join(tokens)`. -/
def joinSp : List (List Char) → List Char
  | [] => []
  | t :: ts =>
    match ts with
    | [] => t
    | _ :: _ => t ++ ' ' :: joinSp ts

/-- Boolean substring-at-the-start test (Python `str.startswith`, and the
prefix test used by `find`). -/
def isPrefOf : List Char → List Char → Bool
  | [], _ => true
  | _ :: _, [] => false
  | a :: as, b :: bs => a == b && isPrefOf as bs

/-- Worker for `pyFind`: index of the first occurrence of `pat` at or
after position `i`. -/
def pyFindAux (pat : List Char) : Nat → List Char → Option Nat
  | i, [] => if pat.isEmpty then some i else none
  | i, s =>
    if isPrefOf pat s then some i
    else
      match s with
      | [] => none
      | _ :: rest => pyFindAux pat (i + 1) rest

/-- Python `s.find(pat)`: index of the first occurrence, `-1` if absent. -/
def pyFind (s pat : List Char) : Int :=
  match pyFindAux pat 0 s with
  | some i => (i : Int)
  | none => -1

/-- Python `pat in s` substring test. -/
def pyContains (s pat : List Char) : Bool :=
  (pyFindAux pat 0 s).isSome

/-- Clamp a Python slice index to `[0, n]` (negative indices count from
the end). -/
def pyBound (n : Nat) (i : Int) : Nat :=
  if i < 0 then ((n : Int) + i).toNat else min i.toNat n

/-- Python slice `s[a:b]`. -/
def pySlice (s : List Char) (a b : Int) : List Char :=
  (s.take (pyBound s.length b)).drop (pyBound s.length a)

/-- Python slice `s[a:]`. -/
def pySliceFrom (s : List Char) (a : Int) : List Char :=
  s.drop (pyBound s.length a)

/-- Python indexing `s[i]`; `none` models an `IndexError`. -/
def pyIndex (s : List Char) (i : Int) : Option Char :=
  if 0 ≤ i then s[i.toNat]?
  else if 0 ≤ (s.length : Int) + i then s[((s.length : Int) + i).toNat]?
  else none

/-- Python `s.encode('ascii','ignore').decode('ascii')`: drop every
character outside the ASCII range. -/
def asciiIgnore (s : List Char) : List Char :=
  s.filter (fun c => c.toNat < 128)

/-- Python `s.replace(c, '')` for a single-character pattern. -/
def pyRemoveChar (c : Char) (s : List Char) : List Char :=
  s.filter (fun x => x != c)

/-- Python `'0' <= c <= '9'` digit test.  (Python's `str.isdigit` also
accepts some non-ASCII digit characters, but every string this predicate
is applied to in the source has already been filtered to ASCII by
`asciiIgnore`.) -/
def isPyDigit (c : Char) : Bool :=
  '0' ≤ c && c ≤ '9'

/-- Python `s.isdigit()` on ASCII data: nonempty and all digits. -/
def pyIsdigitStr (s : List Char) : Bool :=
  !s.isEmpty && s.all isPyDigit

/-- Convert a Lean string literal to the `List Char` representation. -/
def pstr (s : String) : List Char :=
  s.toList

/-- The literal string `"Unknown"`. -/
def unknownStr : List Char :=
  pstr "Unknown"

/-- A row of the installed table (a dict built by
`parse_winget_list_output`). -/
structure PackageRecord where
  name : List Char
  id : List Char
  current_version : List Char
deriving DecidableEq, Repr

/-- A row of the upgrade table (a dict built by
`parse_winget_upgrade_output`). -/
structure UpgradeRecord where
  name : List Char
  id : List Char
  current_version : List Char
  available_version : List Char
deriving DecidableEq, Repr

/-- A reconciled record produced by `merge_installed_with_upgradable`. -/
structure ReconciledRecord where
  name : List Char
  id : List Char
  current_version : List Char
  latest_version : List Char
  update_available : Bool
deriving DecidableEq, Repr

/-- Python `s.encode('ascii','ignore').decode('ascii').strip()`, the
cleanup applied to every sliced field. -/
def cleanAscii (s : List Char) : List Char :=
  pyStrip (asciiIgnore s)

/-- Python `' '.join(s.split())`, the whitespace normalisation applied to
every version field at accumulation time. -/
def normSpace (s : List Char) : List Char :=
  joinSp (pySplitWS s)

/-- Test from the filter pass: `'.' in part or
part.replace('.','').replace('-','').isdigit()`. -/
def isVersionToken (part : List Char) : Bool :=
  part.contains '.' || pyIsdigitStr (pyRemoveChar '-' (pyRemoveChar '.' part))

/-- The version-token selection of the filter pass
(`latest_version.py` lines 122-129, 132-139 and 223-231): inside
`if version_parts:` scan for the first qualifying token; the `for`-`else`
fallback is `version_parts[0] if version_parts else "Unknown"`, and when
there are no tokens at all the cleaned field is left unchanged. -/
def refineVersion (v : List Char) : List Char :=
  let parts := pySplitWS v
  if parts.isEmpty then v
  else
    match parts.find? isVersionToken with
    | some p => p
    | none => parts.headD unknownStr

/-- The `version.replace('¦', '').strip()` cleanup that precedes
`refineVersion` in the filter pass (`'¦'` is U+00A6). -/
def cleanupVer (s : List Char) : List Char :=
  pyStrip (pyRemoveChar '\xa6' s)

/-- Version-token selection as the spec words it (for the refinement
claim C7): split the cleaned field on whitespace and select the first
token that contains a `'.'` or is all-digit after removing `'.'` and
`'-'`; if no token qualifies select the first token, and if there are no
tokens at all use the literal string `"Unknown"`.  To be compared with
`refineVersion`, which is translated from the code. -/
def specRefineVersion (v : List Char) : List Char :=
  match (pySplitWS v).find? isVersionToken with
  | some p => p
  | none =>
    match pySplitWS v with
    | p :: _ => p
    | [] => unknownStr

/-- Substring occurrence (for stating claim C8): `p` occurs contiguously
inside `s`. -/
def InfixOf (p s : List Char) : Prop :=
  ∃ a b, s = a ++ p ++ b

/-- Prepend a prefix to the first element of a list of lines (the shape
in which `splitlinesAux` relates different accumulators). -/
def glue (p : List Char) (ls : List (List Char)) : List (List Char) :=
  match ls with
  | [] => if p.isEmpty then [] else [p]
  | h :: t => (p ++ h) :: t

/-- Header detection: a line containing `"Name"`, `"Id"` and `"Version"`
as substrings. -/
def isHeaderLine (l : List Char) : Bool :=
  pyContains l (pstr "Name") && pyContains l (pstr "Id") &&
    pyContains l (pstr "Version")

/-- Scan for the first header line, returning it with its index. -/
def findHeader : Nat → List (List Char) → Option (List Char × Nat)
  | _, [] => none
  | i, l :: rest =>
    if isHeaderLine l then some (l, i) else findHeader (i + 1) rest

/-- Build one installed-table record from a row (`latest_version.py`
lines 186-202): slice by the header offsets, strip, drop non-ASCII
characters, strip again, and normalise whitespace in the version. -/
def mkListRecord (name_start id_start version_start source_start : Int)
    (line : List Char) : PackageRecord :=
  let name := if id_start > name_start then pyStrip (pySlice line name_start id_start)
              else pyStrip (pySliceFrom line name_start)
  let app_id := if version_start > id_start then pyStrip (pySlice line id_start version_start)
                else []
  let current_version := if source_start > version_start then pyStrip (pySlice line version_start source_start)
                         else pyStrip (pySliceFrom line version_start)
  { name := cleanAscii name,
    id := cleanAscii app_id,
    current_version := normSpace (cleanAscii current_version) }

/-- Build one upgrade-table record from a row (`latest_version.py`
lines 80-100). -/
def mkUpgradeRecord (name_start id_start version_start available_start source_start : Int)
    (line : List Char) : UpgradeRecord :=
  let name := if id_start > name_start then pyStrip (pySlice line name_start id_start)
              else pyStrip (pySliceFrom line name_start)
  let app_id := if version_start > id_start then pyStrip (pySlice line id_start version_start)
                else []
  let current_version := if available_start > version_start then pyStrip (pySlice line version_start available_start)
                         else []
  let available_version := if source_start > available_start then pyStrip (pySlice line available_start source_start)
                           else pyStrip (pySliceFrom line available_start)
  { name := cleanAscii name,
    id := cleanAscii app_id,
    current_version := normSpace (cleanAscii current_version),
    available_version := normSpace (cleanAscii available_version) }

/-- Flush the accumulated record
(`if current_app and current_app.get("name") and
current_app.get("current_version")`). -/
def flushList (cur : Option PackageRecord) : List PackageRecord :=
  match cur with
  | none => []
  | some a => if !a.name.isEmpty && !a.current_version.isEmpty then [a] else []

/-- Flush the accumulated record of the upgrade parser (same test: the
flush condition does not look at `available_version`). -/
def flushUpgrade (cur : Option UpgradeRecord) : List UpgradeRecord :=
  match cur with
  | none => []
  | some a => if !a.name.isEmpty && !a.current_version.isEmpty then [a] else []

/-- The data-row loop of `parse_winget_list_output` (lines 175-209).
`none` models the `IndexError` Python would raise on `line[name_start]`
when that index is out of range. -/
def listLoop (name_start id_start version_start source_start : Int) :
    List (List Char) → Option PackageRecord → Option (List PackageRecord)
  | [], cur => some (flushList cur)
  | line :: rest, cur =>
    if (pyStrip line).isEmpty || isPrefOf (pstr "-") line then
      listLoop name_start id_start version_start source_start rest cur
    else if (line.length : Int) > name_start then
      match pyIndex line name_start with
      | none => none
      | some c =>
        if c ≠ ' ' then
          (listLoop name_start id_start version_start source_start rest
            (some (mkListRecord name_start id_start version_start source_start line))).map
            (fun tail => flushList cur ++ tail)
        else listLoop name_start id_start version_start source_start rest cur
    else listLoop name_start id_start version_start source_start rest cur

/-- The data-row loop of `parse_winget_upgrade_output` (lines 69-107). -/
def upgradeLoop (name_start id_start version_start available_start source_start : Int) :
    List (List Char) → Option UpgradeRecord → Option (List UpgradeRecord)
  | [], cur => some (flushUpgrade cur)
  | line :: rest, cur =>
    if (pyStrip line).isEmpty || isPrefOf (pstr "-") line then
      upgradeLoop name_start id_start version_start available_start source_start rest cur
    else if (line.length : Int) > name_start then
      match pyIndex line name_start with
      | none => none
      | some c =>
        if c ≠ ' ' then
          (upgradeLoop name_start id_start version_start available_start source_start rest
            (some (mkUpgradeRecord name_start id_start version_start available_start source_start line))).map
            (fun tail => flushUpgrade cur ++ tail)
        else upgradeLoop name_start id_start version_start available_start source_start rest cur
    else upgradeLoop name_start id_start version_start available_start source_start rest cur

/-- Accumulation stage of `parse_winget_list_output` (everything before
the filter pass): split into lines, find the header, compute the column
offsets, and run the row loop starting two lines after the header. -/
def listRawRecords (output : List Char) : Option (List PackageRecord) :=
  let lines := pySplitlines (pyStrip output)
  if lines.length < 3 then some []
  else
    match findHeader 0 lines with
    | none => some []
    | some (header_line, i) =>
      listLoop (pyFind header_line (pstr "Name")) (pyFind header_line (pstr "Id"))
        (pyFind header_line (pstr "Version")) (pyFind header_line (pstr "Source"))
        (lines.drop (i + 2)) none

/-- Accumulation stage of `parse_winget_upgrade_output`. -/
def upgradeRawRecords (output : List Char) : Option (List UpgradeRecord) :=
  let lines := pySplitlines (pyStrip output)
  if lines.length < 3 then some []
  else
    match findHeader 0 lines with
    | none => some []
    | some (header_line, i) =>
      upgradeLoop (pyFind header_line (pstr "Name")) (pyFind header_line (pstr "Id"))
        (pyFind header_line (pstr "Version")) (pyFind header_line (pstr "Available"))
        (pyFind header_line (pstr "Source")) (lines.drop (i + 2)) none

/-- Filter pass of `parse_winget_list_output` (lines 212-234): keep
records with truthy `name` and `current_version` and `len(name) > 1`,
refining the version string. -/
def listFilterPass (apps : List PackageRecord) : List PackageRecord :=
  apps.filterMap fun app =>
    if !app.name.isEmpty && !app.current_version.isEmpty &&
        decide (app.name.length > 1) then
      some { app with current_version := refineVersion (cleanupVer app.current_version) }
    else none

/-- Filter pass of `parse_winget_upgrade_output` (lines 110-143): also
requires a truthy `available_version`, and refines both version fields. -/
def upgradeFilterPass (apps : List UpgradeRecord) : List UpgradeRecord :=
  apps.filterMap fun app =>
    if !app.name.isEmpty && !app.current_version.isEmpty &&
        !app.available_version.isEmpty && decide (app.name.length > 1) then
      some { app with
             current_version := refineVersion (cleanupVer app.current_version),
             available_version := refineVersion (cleanupVer app.available_version) }
    else none

/-- Checked `parse_winget_list_output`; `none` models a raised
exception. -/
def parseWingetListChecked (output : List Char) : Option (List PackageRecord) :=
  (listRawRecords output).map listFilterPass

/-- Checked `parse_winget_upgrade_output`. -/
def parseWingetUpgradeChecked (output : List Char) : Option (List UpgradeRecord) :=
  (upgradeRawRecords output).map upgradeFilterPass

/-- `parse_winget_list_output` from `latest_version.py`. -/
def parse_winget_list_output (output : List Char) : List PackageRecord :=
  (parseWingetListChecked output).getD []

/-- `parse_winget_upgrade_output` from `latest_version.py`. -/
def parse_winget_upgrade_output (output : List Char) : List UpgradeRecord :=
  (parseWingetUpgradeChecked output).getD []

/-- The upgrade-lookup dict of `merge_installed_with_upgradable`
(lines 241-244): iterate over `upgradable`, indexing each record with a
truthy `id` by that id; a later record with the same id overwrites an
earlier one. -/
def lookupStep (d : List Char → Option UpgradeRecord) (app : UpgradeRecord) :
    List Char → Option UpgradeRecord :=
  if app.id.isEmpty then d
  else fun k => if k = app.id then some app else d k

/-- The dict of `merge_installed_with_upgradable` as a lookup function. -/
def buildUpgradeLookup (upgradable : List UpgradeRecord) : List Char → Option UpgradeRecord :=
  upgradable.foldl lookupStep (fun _ => none)

/-- `merge_installed_with_upgradable` from `latest_version.py`
(lines 238-273). -/
def merge_installed_with_upgradable (installed_apps : List PackageRecord)
    (upgradable_apps : List UpgradeRecord) : List ReconciledRecord :=
  let upgrade_lookup := buildUpgradeLookup upgradable_apps
  installed_apps.map fun app =>
    match upgrade_lookup app.id with
    | some upgrade_info =>
      let current_ver := app.current_version
      let latest_ver := upgrade_info.available_version
      { name := app.name, id := app.id, current_version := app.current_version,
        latest_version := latest_ver,
        update_available :=
          decide (current_ver ≠ latest_ver) && decide (latest_ver ≠ unknownStr) &&
            decide (current_ver ≠ unknownStr) }
    | none =>
      { name := app.name, id := app.id, current_version := app.current_version,
        latest_version := app.current_version,
        update_available := false }

/-! ### Lemmas about the reconciler -/

theorem foldl_lookupStep_eq_none_iff (ups : List UpgradeRecord)
    (d : List Char → Option UpgradeRecord) (k : List Char) :
    List.foldl lookupStep d ups k = none ↔
      (d k = none ∧ ∀ u ∈ ups, ¬(u.id ≠ [] ∧ u.id = k)) := by
  induction ups generalizing d with
  | nil => simp
  | cons a rest ih =>
    simp only [List.foldl_cons, ih, List.mem_cons]
    unfold lookupStep
    by_cases ha : a.id.isEmpty
    · have ha' : a.id = [] := by simpa [List.isEmpty_iff] using ha
      simp only [if_pos ha]
      constructor
      · rintro ⟨hd, hrest⟩
        refine ⟨hd, ?_⟩
        rintro u (rfl | hu)
        · simp [ha']
        · exact hrest u hu
      · rintro ⟨hd, hall⟩
        exact ⟨hd, fun u hu => hall u (Or.inr hu)⟩
    · have ha' : a.id ≠ [] := by simpa [List.isEmpty_iff] using ha
      simp only [if_neg ha]
      by_cases hk : k = a.id
      · simp only [if_pos hk]
        constructor
        · rintro ⟨hd, -⟩; exact absurd hd (by simp)
        · rintro ⟨-, hall⟩
          exact absurd ⟨ha', hk.symm⟩ (hall a (Or.inl rfl))
      · simp only [if_neg hk]
        constructor
        · rintro ⟨hd, hrest⟩
          refine ⟨hd, ?_⟩
          rintro u (rfl | hu)
          · rintro ⟨-, hid⟩; exact hk hid.symm
          · exact hrest u hu
        · rintro ⟨hd, hall⟩
          exact ⟨hd, fun u hu => hall u (Or.inr hu)⟩

theorem foldl_lookupStep_eq_some (ups : List UpgradeRecord)
    (d : List Char → Option UpgradeRecord) (k : List Char) (u : UpgradeRecord)
    (h : List.foldl lookupStep d ups k = some u) :
    (u ∈ ups ∧ u.id = k ∧ u.id ≠ []) ∨ d k = some u := by
  induction ups generalizing d with
  | nil => exact Or.inr (by simpa using h)
  | cons a rest ih =>
    simp only [List.foldl_cons] at h
    rcases ih (lookupStep d a) h with ⟨hu, hk, hne⟩ | hd
    · exact Or.inl ⟨List.mem_cons_of_mem _ hu, hk, hne⟩
    · unfold lookupStep at hd
      by_cases ha : a.id.isEmpty
      · simp only [if_pos ha] at hd
        exact Or.inr hd
      · simp only [if_neg ha] at hd
        by_cases hk : k = a.id
        · simp only [if_pos hk] at hd
          injection hd with h
          subst h
          refine Or.inl ⟨List.mem_cons_self a rest, hk.symm, ?_⟩
          simpa [List.isEmpty_iff] using ha
        · simp only [if_neg hk] at hd
          exact Or.inr hd

theorem buildUpgradeLookup_eq_none_iff (ups : List UpgradeRecord) (k : List Char) :
    buildUpgradeLookup ups k = none ↔ ∀ u ∈ ups, ¬(u.id ≠ [] ∧ u.id = k) := by
  unfold buildUpgradeLookup
  rw [foldl_lookupStep_eq_none_iff]
  simp

theorem buildUpgradeLookup_eq_some (ups : List UpgradeRecord) (k : List Char)
    (u : UpgradeRecord) (h : buildUpgradeLookup ups k = some u) :
    u ∈ ups ∧ u.id = k ∧ u.id ≠ [] := by
  rcases foldl_lookupStep_eq_some ups _ k u h with hgood | hbad
  · exact hgood
  · exact absurd hbad (by simp)

theorem merge_length (installed : List PackageRecord) (ups : List UpgradeRecord) :
    (merge_installed_with_upgradable installed ups).length = installed.length := by
  simp [merge_installed_with_upgradable]

theorem merge_get (installed : List PackageRecord) (ups : List UpgradeRecord)
    (i : Nat) (hi : i < installed.length)
    (ho : i < (merge_installed_with_upgradable installed ups).length) :
    (merge_installed_with_upgradable installed ups).get ⟨i, ho⟩ =
      (fun app =>
        match buildUpgradeLookup ups app.id with
        | some upgrade_info =>
          { name := app.name, id := app.id, current_version := app.current_version,
            latest_version := upgrade_info.available_version,
            update_available :=
              decide (app.current_version ≠ upgrade_info.available_version) &&
                decide (upgrade_info.available_version ≠ unknownStr) &&
                decide (app.current_version ≠ unknownStr) : ReconciledRecord }
        | none =>
          { name := app.name, id := app.id, current_version := app.current_version,
            latest_version := app.current_version,
            update_available := false }) (installed.get ⟨i, hi⟩) := by
  simp [merge_installed_with_upgradable, List.get_eq_getElem, List.getElem_map]

/-! ### Claim theorems about the reconciler -/

/-- C1: for every installed record whose id equals the non-empty id of
some upgradable record, `merge_installed_with_upgradable` sets
`latest_version` to the matched record's `available_version`, and sets
`update_available` to true iff `current_version` differs from that
`latest_version` and neither of the two equals the literal `"Unknown"`. -/
theorem merge_hit_latest_and_flag (installed : List PackageRecord)
    (ups : List UpgradeRecord) (i : Nat) (hi : i < installed.length)
    (ho : i < (merge_installed_with_upgradable installed ups).length)
    (hmatch : ∃ u ∈ ups, u.id ≠ [] ∧ u.id = (installed.get ⟨i, hi⟩).id) :
    ∃ u ∈ ups, u.id = (installed.get ⟨i, hi⟩).id ∧
      ((merge_installed_with_upgradable installed ups).get ⟨i, ho⟩).latest_version =
        u.available_version ∧
      (((merge_installed_with_upgradable installed ups).get ⟨i, ho⟩).update_available = true ↔
        ((installed.get ⟨i, hi⟩).current_version ≠ u.available_version ∧
          u.available_version ≠ unknownStr ∧
          (installed.get ⟨i, hi⟩).current_version ≠ unknownStr)) := by
  have hlk : buildUpgradeLookup ups (installed.get ⟨i, hi⟩).id ≠ none := by
    intro h
    rw [buildUpgradeLookup_eq_none_iff] at h
    obtain ⟨u, hu, hprop⟩ := hmatch
    exact h u hu hprop
  obtain ⟨u, hu⟩ : ∃ u, buildUpgradeLookup ups (installed.get ⟨i, hi⟩).id = some u := by
    cases h : buildUpgradeLookup ups (installed.get ⟨i, hi⟩).id
    · exact absurd h hlk
    · exact ⟨_, rfl⟩
  obtain ⟨humem, huid, -⟩ := buildUpgradeLookup_eq_some ups _ u hu
  simp only [List.get_eq_getElem] at hu
  refine ⟨u, humem, huid, ?_, ?_⟩ <;> rw [merge_get installed ups i hi ho] <;>
    simp only [List.get_eq_getElem, hu]
  simp [Bool.and_eq_true, decide_eq_true_iff, and_assoc]

/-- Witness for C1 at a concrete hit. -/
theorem merge_hit_latest_and_flag_witness :
    ((merge_installed_with_upgradable
        [⟨pstr "Foo", pstr "Foo.Bar", pstr "1.0"⟩]
        [⟨pstr "Foo", pstr "Foo.Bar", pstr "1.0", pstr "2.0"⟩]).get
      ⟨0, by decide⟩).latest_version = pstr "2.0" := by
  obtain ⟨u, hu, -, hlatest, -⟩ :=
    merge_hit_latest_and_flag
      [⟨pstr "Foo", pstr "Foo.Bar", pstr "1.0"⟩]
      [⟨pstr "Foo", pstr "Foo.Bar", pstr "1.0", pstr "2.0"⟩]
      0 (by decide) (by decide) (by decide)
  have hu' : u = ⟨pstr "Foo", pstr "Foo.Bar", pstr "1.0", pstr "2.0"⟩ := by
    simpa using hu
  rw [hlatest, hu']

/-- C2: an installed record whose id matches no non-empty id among the
upgradable records (in particular one with an empty id) keeps its own
`current_version` as `latest_version` and gets `update_available =
false`. -/
theorem merge_miss_keeps_current (installed : List PackageRecord)
    (ups : List UpgradeRecord) (i : Nat) (hi : i < installed.length)
    (ho : i < (merge_installed_with_upgradable installed ups).length)
    (hmiss : ∀ u ∈ ups, ¬(u.id ≠ [] ∧ u.id = (installed.get ⟨i, hi⟩).id)) :
    ((merge_installed_with_upgradable installed ups).get ⟨i, ho⟩).latest_version =
      (installed.get ⟨i, hi⟩).current_version ∧
    ((merge_installed_with_upgradable installed ups).get ⟨i, ho⟩).update_available = false := by
  have hlk : buildUpgradeLookup ups (installed.get ⟨i, hi⟩).id = none :=
    (buildUpgradeLookup_eq_none_iff ups _).mpr hmiss
  simp only [List.get_eq_getElem] at hlk
  refine ⟨?_, ?_⟩ <;> rw [merge_get installed ups i hi ho] <;>
    simp only [List.get_eq_getElem, hlk]

/-- Witness for C2: an installed record with an empty id misses even when
an upgradable record also has an empty id. -/
theorem merge_miss_keeps_current_witness :
    ((merge_installed_with_upgradable
        [⟨pstr "Foo", pstr "", pstr "1.0"⟩]
        [⟨pstr "Bar", pstr "", pstr "1.0", pstr "2.0"⟩]).get
      ⟨0, by decide⟩).latest_version = pstr "1.0" ∧
    ((merge_installed_with_upgradable
        [⟨pstr "Foo", pstr "", pstr "1.0"⟩]
        [⟨pstr "Bar", pstr "", pstr "1.0", pstr "2.0"⟩]).get
      ⟨0, by decide⟩).update_available = false :=
  merge_miss_keeps_current
    [⟨pstr "Foo", pstr "", pstr "1.0"⟩]
    [⟨pstr "Bar", pstr "", pstr "1.0", pstr "2.0"⟩]
    0 (by decide) (by decide) (by decide)

/-- C3: the reconciler output has exactly the length of the installed
input and lists the installed records in input order (name, id and
current version preserved at every index). -/
theorem merge_same_length_and_order (installed : List PackageRecord)
    (ups : List UpgradeRecord) :
    (merge_installed_with_upgradable installed ups).length = installed.length ∧
    ∀ i (hi : i < installed.length)
      (ho : i < (merge_installed_with_upgradable installed ups).length),
      ((merge_installed_with_upgradable installed ups).get ⟨i, ho⟩).name =
        (installed.get ⟨i, hi⟩).name ∧
      ((merge_installed_with_upgradable installed ups).get ⟨i, ho⟩).id =
        (installed.get ⟨i, hi⟩).id ∧
      ((merge_installed_with_upgradable installed ups).get ⟨i, ho⟩).current_version =
        (installed.get ⟨i, hi⟩).current_version := by
  refine ⟨merge_length installed ups, ?_⟩
  intro i hi ho
  rw [merge_get installed ups i hi ho]
  simp only [List.get_eq_getElem]
  cases h : buildUpgradeLookup ups installed[i].id <;> simp [h]

/-- Witness for C3 at concrete input. -/
theorem merge_same_length_and_order_witness :
    (merge_installed_with_upgradable
        [⟨pstr "Foo", pstr "Foo.Bar", pstr "1.0"⟩]
        [⟨pstr "Foo", pstr "Foo.Bar", pstr "1.0", pstr "2.0"⟩]).length = 1 ∧
    ((merge_installed_with_upgradable
        [⟨pstr "Foo", pstr "Foo.Bar", pstr "1.0"⟩]
        [⟨pstr "Foo", pstr "Foo.Bar", pstr "1.0", pstr "2.0"⟩]).get
      ⟨0, by decide⟩).name = pstr "Foo" := by
  obtain ⟨hlen, hord⟩ :=
    merge_same_length_and_order
      [⟨pstr "Foo", pstr "Foo.Bar", pstr "1.0"⟩]
      [⟨pstr "Foo", pstr "Foo.Bar", pstr "1.0", pstr "2.0"⟩]
  exact ⟨hlen, (hord 0 (by decide) (by decide)).1⟩

/-! ### Claim C5: the concrete 7-Zip scenario -/

/-- C5 counterexample: on the spec's scenario input the list parser does
not produce the claimed record.  In the header `"Name   Id   Version"`
the keyword offsets are 0, 7 and 12 (not 0, 7, 11 as the claim states),
so the id column of the data row `"7-Zip  7zip.7zip  23.01"` spans
`row[7:12] = "7zip."`: the id is truncated. -/
theorem list_parse_seven_zip_counterexample :
    parse_winget_list_output
        (pstr "Name   Id   Version\n-------------------\n7-Zip  7zip.7zip  23.01") ≠
      [⟨pstr "7-Zip", pstr "7zip.7zip", pstr "23.01"⟩] := by
  decide

/-- C5 amended: the scenario input yields the single record with name
`"7-Zip"`, truncated id `"7zip."` and current version `"23.01"` (the
version field slice is `"7zip  23.01"`, and token selection picks
`"23.01"`, the first token that contains a dot). -/
theorem list_parse_seven_zip_actual :
    parse_winget_list_output
        (pstr "Name   Id   Version\n-------------------\n7-Zip  7zip.7zip  23.01") =
      [⟨pstr "7-Zip", pstr "7zip.", pstr "23.01"⟩] := by
  decide

/-! ### Claim C6: fallback when an end-boundary keyword is absent -/

theorem pyFind_ge_neg_one (s p : List Char) : -1 ≤ pyFind s p := by
  unfold pyFind
  cases pyFindAux p 0 s
  · simp
  · simp; omega

/-- C6 counterexample: in the upgrade parser, when `"Available"` is
absent from the header the current-version field does not consume the
rest of the line; it is set to the empty string (`latest_version.py`
line 82, `else ""`). -/
theorem upgrade_current_version_fallback_counterexample :
    (mkUpgradeRecord (pyFind (pstr "Name Id Version") (pstr "Name"))
        (pyFind (pstr "Name Id Version") (pstr "Id"))
        (pyFind (pstr "Name Id Version") (pstr "Version"))
        (pyFind (pstr "Name Id Version") (pstr "Available"))
        (pyFind (pstr "Name Id Version") (pstr "Source"))
        (pstr "Aa   Bb 1.0 xyz")).current_version ≠
      normSpace (cleanAscii (pyStrip (pySliceFrom (pstr "Aa   Bb 1.0 xyz")
        (pyFind (pstr "Name Id Version") (pstr "Version"))))) := by
  decide

/-- C6 amended: when `"Source"` is absent from the header, the list
parser's version field and the upgrade parser's available-version field
do consume the rest of the line from their own offset; but when
`"Available"` is absent, the upgrade parser's current-version field is
the empty string (such records are later dropped by the flush check),
not the rest of the line. -/
theorem slice_fallback_amended (header line : List Char) :
    (pyFind header (pstr "Source") = -1 →
      (mkListRecord (pyFind header (pstr "Name")) (pyFind header (pstr "Id"))
          (pyFind header (pstr "Version")) (pyFind header (pstr "Source"))
          line).current_version =
        normSpace (cleanAscii (pyStrip (pySliceFrom line (pyFind header (pstr "Version"))))) ∧
      (mkUpgradeRecord (pyFind header (pstr "Name")) (pyFind header (pstr "Id"))
          (pyFind header (pstr "Version")) (pyFind header (pstr "Available"))
          (pyFind header (pstr "Source")) line).available_version =
        normSpace (cleanAscii (pyStrip (pySliceFrom line (pyFind header (pstr "Available")))))) ∧
    (pyFind header (pstr "Available") = -1 →
      (mkUpgradeRecord (pyFind header (pstr "Name")) (pyFind header (pstr "Id"))
          (pyFind header (pstr "Version")) (pyFind header (pstr "Available"))
          (pyFind header (pstr "Source")) line).current_version = []) := by
  refine ⟨fun hs => ⟨?_, ?_⟩, fun ha => ?_⟩
  · have hv := pyFind_ge_neg_one header (pstr "Version")
    have hcond : ¬(pyFind header (pstr "Source") > pyFind header (pstr "Version")) := by
      rw [hs]; omega
    simp [mkListRecord, if_neg hcond]
  · have hv := pyFind_ge_neg_one header (pstr "Available")
    have hcond : ¬(pyFind header (pstr "Source") > pyFind header (pstr "Available")) := by
      rw [hs]; omega
    simp [mkUpgradeRecord, if_neg hcond]
  · have hv := pyFind_ge_neg_one header (pstr "Version")
    have hcond : ¬(pyFind header (pstr "Available") > pyFind header (pstr "Version")) := by
      rw [ha]; omega
    simp [mkUpgradeRecord, if_neg hcond]
    decide

/-- Witness for the amended C6 at a concrete header lacking both
`"Available"` and `"Source"`. -/
theorem slice_fallback_amended_witness :
    (mkUpgradeRecord (pyFind (pstr "Name Id Version") (pstr "Name"))
        (pyFind (pstr "Name Id Version") (pstr "Id"))
        (pyFind (pstr "Name Id Version") (pstr "Version"))
        (pyFind (pstr "Name Id Version") (pstr "Available"))
        (pyFind (pstr "Name Id Version") (pstr "Source"))
        (pstr "Aa   Bb 1.0 xyz")).current_version = [] ∧
    (mkListRecord (pyFind (pstr "Name Id Version") (pstr "Name"))
        (pyFind (pstr "Name Id Version") (pstr "Id"))
        (pyFind (pstr "Name Id Version") (pstr "Version"))
        (pyFind (pstr "Name Id Version") (pstr "Source"))
        (pstr "Aa   Bb 1.0 xyz")).current_version =
      normSpace (cleanAscii (pyStrip (pySliceFrom (pstr "Aa   Bb 1.0 xyz")
        (pyFind (pstr "Name Id Version") (pstr "Version"))))) := by
  have h := slice_fallback_amended (pstr "Name Id Version") (pstr "Aa   Bb 1.0 xyz")
  exact ⟨h.2 (by decide), (h.1 (by decide)).1⟩

/-! ### Totality of the parsers (claim C9)

The only Python operation in the two parsers that can raise is the
indexing `line[name_start]`; it is guarded by `len(line) > name_start`,
which makes it safe exactly because `name_start ≥ 0` whenever a header
line was found. -/

theorem pyContains_iff_find_nonneg (s p : List Char) :
    pyContains s p = true ↔ 0 ≤ pyFind s p := by
  unfold pyContains pyFind
  cases pyFindAux p 0 s <;> simp

theorem isHeaderLine_find_name_nonneg (l : List Char) (h : isHeaderLine l = true) :
    0 ≤ pyFind l (pstr "Name") := by
  unfold isHeaderLine at h
  simp only [Bool.and_eq_true] at h
  exact (pyContains_iff_find_nonneg l (pstr "Name")).mp h.1.1

theorem findHeader_some_isHeader (ls : List (List Char)) (i : Nat)
    (h : List Char) (j : Nat) (hfind : findHeader i ls = some (h, j)) :
    isHeaderLine h = true := by
  induction ls generalizing i with
  | nil => simp [findHeader] at hfind
  | cons l rest ih =>
    unfold findHeader at hfind
    by_cases hl : isHeaderLine l
    · simp only [if_pos hl] at hfind
      injection hfind with h1
      injection h1 with h2 h3
      exact h2 ▸ hl
    · simp only [if_neg hl] at hfind
      exact ih (i + 1) hfind

theorem pyIndex_isSome (s : List Char) (i : Int) (h0 : 0 ≤ i)
    (hlt : i < (s.length : Int)) : (pyIndex s i).isSome := by
  unfold pyIndex
  rw [if_pos h0]
  have : i.toNat < s.length := by omega
  simp [List.getElem?_eq_getElem this]

theorem listLoop_isSome (ns is vs ss : Int) (h0 : 0 ≤ ns) :
    ∀ (ls : List (List Char)) (cur : Option PackageRecord),
      (listLoop ns is vs ss ls cur).isSome := by
  intro ls
  induction ls with
  | nil => intro cur; simp [listLoop]
  | cons line rest ih =>
    intro cur
    unfold listLoop
    by_cases hskip : (pyStrip line).isEmpty || isPrefOf (pstr "-") line
    · simpa [hskip] using ih cur
    · simp only [hskip, Bool.false_eq_true, if_false]
      by_cases hlen : (line.length : Int) > ns
      · rw [if_pos hlen]
        obtain ⟨c, hc⟩ := Option.isSome_iff_exists.mp (pyIndex_isSome line ns h0 hlen)
        rw [hc]
        by_cases hsp : c ≠ ' '
        · simpa [hsp] using ih (some (mkListRecord ns is vs ss line))
        · simpa [hsp] using ih cur
      · simpa [hlen] using ih cur

theorem upgradeLoop_isSome (ns is vs as ss : Int) (h0 : 0 ≤ ns) :
    ∀ (ls : List (List Char)) (cur : Option UpgradeRecord),
      (upgradeLoop ns is vs as ss ls cur).isSome := by
  intro ls
  induction ls with
  | nil => intro cur; simp [upgradeLoop]
  | cons line rest ih =>
    intro cur
    unfold upgradeLoop
    by_cases hskip : (pyStrip line).isEmpty || isPrefOf (pstr "-") line
    · simpa [hskip] using ih cur
    · simp only [hskip, Bool.false_eq_true, if_false]
      by_cases hlen : (line.length : Int) > ns
      · rw [if_pos hlen]
        obtain ⟨c, hc⟩ := Option.isSome_iff_exists.mp (pyIndex_isSome line ns h0 hlen)
        rw [hc]
        by_cases hsp : c ≠ ' '
        · simpa [hsp] using ih (some (mkUpgradeRecord ns is vs as ss line))
        · simpa [hsp] using ih cur
      · simpa [hlen] using ih cur

theorem listRawRecords_isSome (output : List Char) :
    (listRawRecords output).isSome := by
  unfold listRawRecords
  by_cases hlen : (pySplitlines (pyStrip output)).length < 3
  · simp [hlen]
  · simp only [hlen, if_false]
    cases hfind : findHeader 0 (pySplitlines (pyStrip output)) with
    | none => simp
    | some hp =>
      obtain ⟨header_line, i⟩ := hp
      have hhl := findHeader_some_isHeader _ 0 header_line i hfind
      exact listLoop_isSome _ _ _ _ (isHeaderLine_find_name_nonneg header_line hhl) _ _

theorem upgradeRawRecords_isSome (output : List Char) :
    (upgradeRawRecords output).isSome := by
  unfold upgradeRawRecords
  by_cases hlen : (pySplitlines (pyStrip output)).length < 3
  · simp [hlen]
  · simp only [hlen, if_false]
    cases hfind : findHeader 0 (pySplitlines (pyStrip output)) with
    | none => simp
    | some hp =>
      obtain ⟨header_line, i⟩ := hp
      have hhl := findHeader_some_isHeader _ 0 header_line i hfind
      exact upgradeLoop_isSome _ _ _ _ _ (isHeaderLine_find_name_nonneg header_line hhl) _ _

theorem listRawRecords_eq_some (output : List Char) :
    ∃ raw, listRawRecords output = some raw :=
  Option.isSome_iff_exists.mp (listRawRecords_isSome output)

theorem upgradeRawRecords_eq_some (output : List Char) :
    ∃ raw, upgradeRawRecords output = some raw :=
  Option.isSome_iff_exists.mp (upgradeRawRecords_isSome output)

/-- C9: both parsers terminate normally on every input: the checked
variants (in which `none` models a raised Python exception) always
return `some`, namely the value of the total wrappers.  Malformed input
degrades to an empty or sentinel-bearing result, never to a failure. -/
theorem parse_never_fails (output : List Char) :
    parseWingetListChecked output = some (parse_winget_list_output output) ∧
    parseWingetUpgradeChecked output = some (parse_winget_upgrade_output output) := by
  constructor
  · obtain ⟨raw, hraw⟩ := listRawRecords_eq_some output
    simp [parse_winget_list_output, parseWingetListChecked, hraw]
  · obtain ⟨raw, hraw⟩ := upgradeRawRecords_eq_some output
    simp [parse_winget_upgrade_output, parseWingetUpgradeChecked, hraw]

/-! ### Shape of the whitespace-normalised version fields

Every version field stored by `mkListRecord`/`mkUpgradeRecord` has the
form `normSpace (cleanAscii X)`: ASCII only, no leading or trailing
whitespace, and nonempty strings split into at least one token.  These
facts make the `replace('¦','').strip()` cleanup of the filter pass a
no-op and guarantee that the refined version of a nonempty field is
nonempty. -/

theorem splitWSAux_token_props (s : List Char) :
    ∀ (acc : List Char), (∀ c ∈ acc, isPySpace c = false) →
      ∀ t ∈ splitWSAux s acc, t ≠ [] ∧ ∀ c ∈ t, isPySpace c = false := by
  induction s with
  | nil =>
    intro acc hacc t ht
    unfold splitWSAux at ht
    by_cases he : acc.isEmpty
    · simp [he] at ht
    · simp only [he, Bool.false_eq_true, if_false, List.mem_singleton] at ht
      subst ht
      refine ⟨by simpa [List.isEmpty_iff] using he, ?_⟩
      intro c hc
      exact hacc c (List.mem_reverse.mp hc)
  | cons c rest ih =>
    intro acc hacc t ht
    unfold splitWSAux at ht
    by_cases hws : isPySpace c
    · rw [if_pos hws] at ht
      by_cases he : acc.isEmpty
      · rw [if_pos he] at ht
        exact ih [] (by simp) t ht
      · rw [if_neg he] at ht
        rcases List.mem_cons.mp ht with rfl | ht'
        · refine ⟨by simpa [List.isEmpty_iff] using he, ?_⟩
          intro x hx
          exact hacc x (List.mem_reverse.mp hx)
        · exact ih [] (by simp) t ht'
    · rw [if_neg hws] at ht
      refine ih (c :: acc) ?_ t ht
      intro x hx
      rcases List.mem_cons.mp hx with rfl | hx'
      · simpa using hws
      · exact hacc x hx'

theorem pySplitWS_token_props (s : List Char) :
    ∀ t ∈ pySplitWS s, t ≠ [] ∧ ∀ c ∈ t, isPySpace c = false :=
  splitWSAux_token_props s [] (by simp)

theorem splitWSAux_chars (s : List Char) :
    ∀ (acc : List Char), ∀ t ∈ splitWSAux s acc, ∀ c ∈ t, c ∈ s ∨ c ∈ acc := by
  induction s with
  | nil =>
    intro acc t ht c hc
    unfold splitWSAux at ht
    by_cases he : acc.isEmpty
    · simp [he] at ht
    · simp only [he, Bool.false_eq_true, if_false, List.mem_singleton] at ht
      subst ht
      exact Or.inr (List.mem_reverse.mp hc)
  | cons a rest ih =>
    intro acc t ht c hc
    unfold splitWSAux at ht
    by_cases hws : isPySpace a
    · rw [if_pos hws] at ht
      by_cases he : acc.isEmpty
      · rw [if_pos he] at ht
        rcases ih [] t ht c hc with h | h
        · exact Or.inl (List.mem_cons_of_mem a h)
        · simp at h
      · rw [if_neg he] at ht
        rcases List.mem_cons.mp ht with rfl | ht'
        · exact Or.inr (List.mem_reverse.mp hc)
        · rcases ih [] t ht' c hc with h | h
          · exact Or.inl (List.mem_cons_of_mem a h)
          · simp at h
    · rw [if_neg hws] at ht
      rcases ih (a :: acc) t ht c hc with h | h
      · exact Or.inl (List.mem_cons_of_mem a h)
      · rcases List.mem_cons.mp h with rfl | h'
        · exact Or.inl (List.mem_cons_self _ _)
        · exact Or.inr h'

theorem pySplitWS_chars (s : List Char) :
    ∀ t ∈ pySplitWS s, ∀ c ∈ t, c ∈ s := by
  intro t ht c hc
  rcases splitWSAux_chars s [] t ht c hc with h | h
  · exact h
  · simp at h

theorem joinSp_chars (ts : List (List Char)) :
    ∀ c ∈ joinSp ts, c = ' ' ∨ ∃ t ∈ ts, c ∈ t := by
  induction ts with
  | nil => simp [joinSp]
  | cons t rest ih =>
    intro c hc
    cases rest with
    | nil =>
      simp only [joinSp] at hc
      exact Or.inr ⟨t, List.mem_cons_self _ _, hc⟩
    | cons t2 rest2 =>
      simp only [joinSp, List.mem_append, List.mem_cons] at hc
      rcases hc with hc | hc | hc
      · exact Or.inr ⟨t, List.mem_cons_self _ _, hc⟩
      · exact Or.inl hc
      · rcases ih c hc with h | ⟨t', ht', hc'⟩
        · exact Or.inl h
        · exact Or.inr ⟨t', List.mem_cons_of_mem t ht', hc'⟩

theorem joinSp_head (t : List Char) (ts : List (List Char)) (ht : t ≠ []) :
    (joinSp (t :: ts)).head? = t.head? := by
  cases ts with
  | nil => rfl
  | cons t2 rest2 =>
    cases t with
    | nil => exact absurd rfl ht
    | cons a r => rfl

theorem joinSp_ne_nil (t : List Char) (ts : List (List Char)) (ht : t ≠ []) :
    joinSp (t :: ts) ≠ [] := by
  intro h
  have := joinSp_head t ts ht
  rw [h] at this
  cases t with
  | nil => exact ht rfl
  | cons a r => simp at this

theorem mem_of_getLast?_eq_some {l : List Char} {g : Char}
    (h : l.getLast? = some g) : g ∈ l := by
  obtain ⟨hne, hg⟩ := List.mem_getLast?_eq_getLast (l := l) (x := g)
    (by simp [Option.mem_def, h])
  exact hg ▸ List.getLast_mem hne

theorem joinSp_getLast (ts : List (List Char)) (hne : ts ≠ [])
    (hall : ∀ t ∈ ts, t ≠ []) :
    ∃ t ∈ ts, (joinSp ts).getLast? = t.getLast? := by
  induction ts with
  | nil => exact absurd rfl hne
  | cons t rest ih =>
    cases rest with
    | nil => exact ⟨t, List.mem_cons_self _ _, rfl⟩
    | cons t2 rest2 =>
      obtain ⟨t', ht', heq⟩ :=
        ih (by simp) (fun u hu => hall u (List.mem_cons_of_mem t hu))
      refine ⟨t', List.mem_cons_of_mem t ht', ?_⟩
      have h2 : joinSp (t :: t2 :: rest2) = t ++ ' ' :: joinSp (t2 :: rest2) := rfl
      rw [h2, List.getLast?_append_of_ne_nil _ (by simp)]
      have hj : joinSp (t2 :: rest2) ≠ [] :=
        joinSp_ne_nil t2 rest2 (hall t2 (by simp))
      rw [← heq]
      cases hjs : joinSp (t2 :: rest2) with
      | nil => exact absurd hjs hj
      | cons b bs =>
        rw [show (' ' :: b :: bs) = [' '] ++ (b :: bs) from rfl,
          List.getLast?_append_of_ne_nil _ (by simp)]

theorem pyStrip_eq_self (u : List Char)
    (hh : ∀ h, u.head? = some h → isPySpace h = false)
    (hl : ∀ g, u.getLast? = some g → isPySpace g = false) :
    pyStrip u = u := by
  cases u with
  | nil => rfl
  | cons a r =>
    have ha : isPySpace a = false := hh a rfl
    unfold pyStrip
    rw [List.dropWhile_cons, ha]
    simp only [Bool.false_eq_true, if_false]
    have hrev : (a :: r).reverse.head? = (a :: r).getLast? := List.head?_reverse _
    cases hrevs : (a :: r).reverse with
    | nil => simp at hrevs
    | cons b bs =>
      rw [hrevs] at hrev
      have hb : isPySpace b = false := hl b (by simpa using hrev.symm)
      rw [List.dropWhile_cons, hb]
      simp only [Bool.false_eq_true, if_false]
      rw [← hrevs, List.reverse_reverse]

theorem splitWSAux_ne_nil_of_acc (s : List Char) :
    ∀ (acc : List Char), acc ≠ [] → splitWSAux s acc ≠ [] := by
  induction s with
  | nil =>
    intro acc hacc
    unfold splitWSAux
    simp [List.isEmpty_iff, hacc]
  | cons c rest ih =>
    intro acc hacc
    unfold splitWSAux
    by_cases hws : isPySpace c
    · simp [hws, List.isEmpty_iff, hacc]
    · rw [if_neg hws]
      exact ih (c :: acc) (by simp)

theorem pySplitWS_ne_nil (u : List Char) (hne : u ≠ [])
    (hh : ∀ h, u.head? = some h → isPySpace h = false) :
    pySplitWS u ≠ [] := by
  cases u with
  | nil => exact absurd rfl hne
  | cons a r =>
    have ha : isPySpace a = false := hh a rfl
    unfold pySplitWS splitWSAux
    rw [if_neg (by simp [ha])]
    exact splitWSAux_ne_nil_of_acc r [a] (by simp)

/-- The key invariant of `normSpace (cleanAscii X)`: all-ASCII, fixed by
`pyStrip`, and (when nonempty) splitting into at least one token. -/
theorem normClean_props (X : List Char) :
    (∀ c ∈ normSpace (cleanAscii X), c.toNat < 128) ∧
    pyStrip (normSpace (cleanAscii X)) = normSpace (cleanAscii X) ∧
    (normSpace (cleanAscii X) ≠ [] → pySplitWS (normSpace (cleanAscii X)) ≠ []) := by
  have hascii : ∀ c ∈ cleanAscii X, c.toNat < 128 := by
    intro c hc
    unfold cleanAscii pyStrip at hc
    rw [List.mem_reverse] at hc
    have hc2 := (List.dropWhile_sublist _).subset hc
    rw [List.mem_reverse] at hc2
    have hc3 := (List.dropWhile_sublist (l := asciiIgnore X)
      (p := isPySpace)).subset hc2
    unfold asciiIgnore at hc3
    have := List.of_mem_filter hc3
    simpa using this
  have htok := pySplitWS_token_props (cleanAscii X)
  have hchars := pySplitWS_chars (cleanAscii X)
  have hjchars := joinSp_chars (pySplitWS (cleanAscii X))
  refine ⟨?_, ?_, ?_⟩
  · intro c hc
    rcases hjchars c hc with rfl | ⟨t, ht, hc'⟩
    · decide
    · exact hascii c (hchars t ht c hc')
  · cases hts : pySplitWS (cleanAscii X) with
    | nil => simp [normSpace, hts, joinSp, pyStrip]
    | cons t rest =>
      have ht := htok t (hts ▸ List.mem_cons_self _ _)
      apply pyStrip_eq_self
      · intro h hh
        unfold normSpace at hh
        rw [hts, joinSp_head t rest ht.1] at hh
        refine ht.2 h ?_
        cases t with
        | nil => simp at hh
        | cons a r =>
          simp only [List.head?_cons, Option.some_inj] at hh
          subst hh
          exact List.mem_cons_self _ _
      · intro g hg
        obtain ⟨t', ht', heq⟩ := joinSp_getLast (t :: rest) (by simp) (by
          intro u hu
          exact (htok u (hts ▸ hu)).1)
        unfold normSpace at hg
        rw [hts, heq] at hg
        have htp := htok t' (hts ▸ ht')
        refine htp.2 g (mem_of_getLast?_eq_some hg)
  · intro hne
    cases hts : pySplitWS (cleanAscii X) with
    | nil => exact absurd (by simp [normSpace, hts, joinSp]) hne
    | cons t rest =>
      have ht := htok t (hts ▸ List.mem_cons_self _ _)
      apply pySplitWS_ne_nil _ hne
      intro h hh
      unfold normSpace at hh
      rw [hts, joinSp_head t rest ht.1] at hh
      refine ht.2 h ?_
      cases t with
      | nil => simp at hh
      | cons a r =>
        simp only [List.head?_cons, Option.some_inj] at hh
        subst hh
        exact List.mem_cons_self _ _

theorem cleanupVer_of_norm (X : List Char) :
    cleanupVer (normSpace (cleanAscii X)) = normSpace (cleanAscii X) := by
  obtain ⟨hascii, hstrip, -⟩ := normClean_props X
  unfold cleanupVer
  have hrm : pyRemoveChar '\xa6' (normSpace (cleanAscii X)) = normSpace (cleanAscii X) := by
    unfold pyRemoveChar
    apply List.filter_eq_self.mpr
    intro c hc
    have hlt := hascii c hc
    simp only [bne_iff_ne, ne_eq]
    intro hEq
    subst hEq
    exact absurd hlt (by decide)
  rw [hrm, hstrip]

theorem refineVersion_ne_nil (v : List Char) (hne : pySplitWS v ≠ []) :
    refineVersion v ≠ [] := by
  have hE : (pySplitWS v).isEmpty = false := by
    simpa [List.isEmpty_iff] using hne
  simp only [refineVersion, hE, Bool.false_eq_true, if_false]
  cases hf : (pySplitWS v).find? isVersionToken with
  | some p =>
    have hp := List.mem_of_find?_eq_some hf
    exact (pySplitWS_token_props v p hp).1
  | none =>
    cases hv : pySplitWS v with
    | nil => exact absurd hv hne
    | cons p rest =>
      simp only [List.headD_cons]
      exact (pySplitWS_token_props v p (hv ▸ List.mem_cons_self _ _)).1

/-! ### Membership shape of the accumulated records -/

theorem mem_flushList {cur : Option PackageRecord} {a : PackageRecord}
    (h : a ∈ flushList cur) : cur = some a := by
  cases cur with
  | none => simp [flushList] at h
  | some b =>
    simp only [flushList] at h
    by_cases hc : (!b.name.isEmpty && !b.current_version.isEmpty) = true
    · rw [if_pos hc] at h
      rw [List.mem_singleton.mp h]
    · rw [if_neg hc] at h
      simp at h

theorem mem_flushUpgrade {cur : Option UpgradeRecord} {a : UpgradeRecord}
    (h : a ∈ flushUpgrade cur) : cur = some a := by
  cases cur with
  | none => simp [flushUpgrade] at h
  | some b =>
    simp only [flushUpgrade] at h
    by_cases hc : (!b.name.isEmpty && !b.current_version.isEmpty) = true
    · rw [if_pos hc] at h
      rw [List.mem_singleton.mp h]
    · rw [if_neg hc] at h
      simp at h

theorem listLoop_mem (ns is vs ss : Int) :
    ∀ (ls : List (List Char)) (cur : Option PackageRecord) (res : List PackageRecord),
      listLoop ns is vs ss ls cur = some res →
      ∀ a ∈ res, (∃ line, a = mkListRecord ns is vs ss line) ∨ cur = some a := by
  intro ls
  induction ls with
  | nil =>
    intro cur res h a ha
    simp only [listLoop] at h
    injection h with h
    subst h
    exact Or.inr (mem_flushList ha)
  | cons line rest ih =>
    intro cur res h a ha
    unfold listLoop at h
    split at h
    · exact ih cur res h a ha
    · split at h
      · split at h
        · exact absurd h (by simp)
        · split at h
          · cases hrec : listLoop ns is vs ss rest
                (some (mkListRecord ns is vs ss line)) with
            | none => rw [hrec] at h; simp at h
            | some tail =>
              rw [hrec] at h
              simp only [Option.map_some'] at h
              injection h with h
              subst h
              rcases List.mem_append.mp ha with hfl | htl
              · exact Or.inr (mem_flushList hfl)
              · rcases ih _ tail hrec a htl with hline | hcur
                · exact Or.inl hline
                · injection hcur with hcur
                  exact Or.inl ⟨line, hcur.symm⟩
          · exact ih cur res h a ha
      · exact ih cur res h a ha

theorem upgradeLoop_mem (ns is vs as ss : Int) :
    ∀ (ls : List (List Char)) (cur : Option UpgradeRecord) (res : List UpgradeRecord),
      upgradeLoop ns is vs as ss ls cur = some res →
      ∀ a ∈ res, (∃ line, a = mkUpgradeRecord ns is vs as ss line) ∨ cur = some a := by
  intro ls
  induction ls with
  | nil =>
    intro cur res h a ha
    simp only [upgradeLoop] at h
    injection h with h
    subst h
    exact Or.inr (mem_flushUpgrade ha)
  | cons line rest ih =>
    intro cur res h a ha
    unfold upgradeLoop at h
    split at h
    · exact ih cur res h a ha
    · split at h
      · split at h
        · exact absurd h (by simp)
        · split at h
          · cases hrec : upgradeLoop ns is vs as ss rest
                (some (mkUpgradeRecord ns is vs as ss line)) with
            | none => rw [hrec] at h; simp at h
            | some tail =>
              rw [hrec] at h
              simp only [Option.map_some'] at h
              injection h with h
              subst h
              rcases List.mem_append.mp ha with hfl | htl
              · exact Or.inr (mem_flushUpgrade hfl)
              · rcases ih _ tail hrec a htl with hline | hcur
                · exact Or.inl hline
                · injection hcur with hcur
                  exact Or.inl ⟨line, hcur.symm⟩
          · exact ih cur res h a ha
      · exact ih cur res h a ha

theorem mkListRecord_cv_shape (ns is vs ss : Int) (line : List Char) :
    ∃ X, (mkListRecord ns is vs ss line).current_version = normSpace (cleanAscii X) :=
  ⟨_, rfl⟩

theorem mkUpgradeRecord_cv_shape (ns is vs as ss : Int) (line : List Char) :
    ∃ X, (mkUpgradeRecord ns is vs as ss line).current_version = normSpace (cleanAscii X) :=
  ⟨_, rfl⟩

theorem mkUpgradeRecord_av_shape (ns is vs as ss : Int) (line : List Char) :
    ∃ X, (mkUpgradeRecord ns is vs as ss line).available_version = normSpace (cleanAscii X) :=
  ⟨_, rfl⟩

theorem listRawRecords_shape (output : List Char) (raw : List PackageRecord)
    (h : listRawRecords output = some raw) :
    ∀ a ∈ raw, ∃ ns is vs ss line, a = mkListRecord ns is vs ss line := by
  unfold listRawRecords at h
  by_cases hlen : (pySplitlines (pyStrip output)).length < 3
  · rw [if_pos hlen] at h
    injection h with h
    subst h
    simp
  · rw [if_neg hlen] at h
    cases hf : findHeader 0 (pySplitlines (pyStrip output)) with
    | none =>
      rw [hf] at h
      injection h with h
      subst h
      simp
    | some hp =>
      obtain ⟨header, i⟩ := hp
      rw [hf] at h
      intro a ha
      rcases listLoop_mem _ _ _ _ _ _ _ h a ha with ⟨line, rfl⟩ | hcur
      · exact ⟨_, _, _, _, line, rfl⟩
      · simp at hcur

theorem upgradeRawRecords_shape (output : List Char) (raw : List UpgradeRecord)
    (h : upgradeRawRecords output = some raw) :
    ∀ a ∈ raw, ∃ ns is vs as ss line, a = mkUpgradeRecord ns is vs as ss line := by
  unfold upgradeRawRecords at h
  by_cases hlen : (pySplitlines (pyStrip output)).length < 3
  · rw [if_pos hlen] at h
    injection h with h
    subst h
    simp
  · rw [if_neg hlen] at h
    cases hf : findHeader 0 (pySplitlines (pyStrip output)) with
    | none =>
      rw [hf] at h
      injection h with h
      subst h
      simp
    | some hp =>
      obtain ⟨header, i⟩ := hp
      rw [hf] at h
      intro a ha
      rcases upgradeLoop_mem _ _ _ _ _ _ _ _ h a ha with ⟨line, rfl⟩ | hcur
      · exact ⟨_, _, _, _, _, line, rfl⟩
      · simp at hcur

/-! ### The filter passes -/

theorem mem_listFilterPass {apps : List PackageRecord} {b : PackageRecord} :
    b ∈ listFilterPass apps ↔ ∃ a ∈ apps,
      (!a.name.isEmpty && !a.current_version.isEmpty &&
        decide (a.name.length > 1)) = true ∧
      b = { a with current_version := refineVersion (cleanupVer a.current_version) } := by
  unfold listFilterPass
  rw [List.mem_filterMap]
  constructor
  · rintro ⟨a, ha, hfa⟩
    by_cases hc : (!a.name.isEmpty && !a.current_version.isEmpty &&
        decide (a.name.length > 1)) = true
    · rw [if_pos hc] at hfa
      injection hfa with hfa
      exact ⟨a, ha, hc, hfa.symm⟩
    · rw [if_neg hc] at hfa
      simp at hfa
  · rintro ⟨a, ha, hc, rfl⟩
    exact ⟨a, ha, by rw [if_pos hc]⟩

theorem mem_upgradeFilterPass {apps : List UpgradeRecord} {b : UpgradeRecord} :
    b ∈ upgradeFilterPass apps ↔ ∃ a ∈ apps,
      (!a.name.isEmpty && !a.current_version.isEmpty &&
        !a.available_version.isEmpty && decide (a.name.length > 1)) = true ∧
      b = { a with
            current_version := refineVersion (cleanupVer a.current_version),
            available_version := refineVersion (cleanupVer a.available_version) } := by
  unfold upgradeFilterPass
  rw [List.mem_filterMap]
  constructor
  · rintro ⟨a, ha, hfa⟩
    by_cases hc : (!a.name.isEmpty && !a.current_version.isEmpty &&
        !a.available_version.isEmpty && decide (a.name.length > 1)) = true
    · rw [if_pos hc] at hfa
      injection hfa with hfa
      exact ⟨a, ha, hc, hfa.symm⟩
    · rw [if_neg hc] at hfa
      simp at hfa
  · rintro ⟨a, ha, hc, rfl⟩
    exact ⟨a, ha, by rw [if_pos hc]⟩

theorem parse_list_eq_filterPass (output : List Char) (raw : List PackageRecord)
    (h : listRawRecords output = some raw) :
    parse_winget_list_output output = listFilterPass raw := by
  simp [parse_winget_list_output, parseWingetListChecked, h]

theorem parse_upgrade_eq_filterPass (output : List Char) (raw : List UpgradeRecord)
    (h : upgradeRawRecords output = some raw) :
    parse_winget_upgrade_output output = upgradeFilterPass raw := by
  simp [parse_winget_upgrade_output, parseWingetUpgradeChecked, h]

/-! ### Claim theorems about the parsed records -/

/-- C4: every record output by either parser has a name longer than one
character and a non-empty current version (the flush checks plus the
second filter pass enforce this). -/
theorem parsed_records_well_formed (output : List Char) :
    (∀ r ∈ parse_winget_list_output output,
        r.name.length > 1 ∧ r.current_version ≠ []) ∧
    (∀ r ∈ parse_winget_upgrade_output output,
        r.name.length > 1 ∧ r.current_version ≠ []) := by
  constructor
  · intro r hr
    obtain ⟨raw, hraw⟩ := listRawRecords_eq_some output
    rw [parse_list_eq_filterPass output raw hraw] at hr
    obtain ⟨a, ha, hc, rfl⟩ := mem_listFilterPass.mp hr
    simp only [Bool.and_eq_true, Bool.not_eq_true', decide_eq_true_iff] at hc
    refine ⟨hc.2, ?_⟩
    have hcv : a.current_version ≠ [] := by
      intro hnil
      simp [hnil] at hc
    obtain ⟨n1, n2, n3, n4, line, haeq⟩ := listRawRecords_shape output raw hraw a ha
    obtain ⟨X, hX⟩ := mkListRecord_cv_shape n1 n2 n3 n4 line
    rw [← haeq] at hX
    show refineVersion (cleanupVer a.current_version) ≠ []
    rw [hX, cleanupVer_of_norm]
    exact refineVersion_ne_nil _ ((normClean_props X).2.2 (hX ▸ hcv))
  · intro r hr
    obtain ⟨raw, hraw⟩ := upgradeRawRecords_eq_some output
    rw [parse_upgrade_eq_filterPass output raw hraw] at hr
    obtain ⟨a, ha, hc, rfl⟩ := mem_upgradeFilterPass.mp hr
    simp only [Bool.and_eq_true, Bool.not_eq_true', decide_eq_true_iff] at hc
    refine ⟨hc.2, ?_⟩
    have hcv : a.current_version ≠ [] := by
      intro hnil
      simp [hnil] at hc
    obtain ⟨n1, n2, n3, n4, n5, line, haeq⟩ :=
      upgradeRawRecords_shape output raw hraw a ha
    obtain ⟨X, hX⟩ := mkUpgradeRecord_cv_shape n1 n2 n3 n4 n5 line
    rw [← haeq] at hX
    show refineVersion (cleanupVer a.current_version) ≠ []
    rw [hX, cleanupVer_of_norm]
    exact refineVersion_ne_nil _ ((normClean_props X).2.2 (hX ▸ hcv))

/-- Witness for C4 at a concrete three-line installed table. -/
theorem parsed_records_well_formed_witness :
    (⟨pstr "FooApp", pstr "Foo.App", pstr "1.0"⟩ : PackageRecord).name.length > 1 ∧
    (⟨pstr "FooApp", pstr "Foo.App", pstr "1.0"⟩ : PackageRecord).current_version ≠ [] :=
  (parsed_records_well_formed
      (pstr "Name    Id      Version\n----\nFooApp  Foo.App 1.0")).1
    ⟨pstr "FooApp", pstr "Foo.App", pstr "1.0"⟩ (by decide)

/-- C10: every record output by the upgrade parser has a non-empty
available version, and the second filter pass drops any accumulated
record whose available version is empty even when its name and current
version are non-empty. -/
theorem upgrade_available_version_nonempty (output : List Char) :
    (∀ r ∈ parse_winget_upgrade_output output, r.available_version ≠ []) ∧
    (∀ (apps : List UpgradeRecord) (a : UpgradeRecord), a.available_version = [] →
      upgradeFilterPass (a :: apps) = upgradeFilterPass apps) := by
  constructor
  · intro r hr
    obtain ⟨raw, hraw⟩ := upgradeRawRecords_eq_some output
    rw [parse_upgrade_eq_filterPass output raw hraw] at hr
    obtain ⟨a, ha, hc, rfl⟩ := mem_upgradeFilterPass.mp hr
    simp only [Bool.and_eq_true, Bool.not_eq_true', decide_eq_true_iff] at hc
    have hav : a.available_version ≠ [] := by
      intro hnil
      simp [hnil] at hc
    obtain ⟨n1, n2, n3, n4, n5, line, haeq⟩ :=
      upgradeRawRecords_shape output raw hraw a ha
    obtain ⟨X, hX⟩ := mkUpgradeRecord_av_shape n1 n2 n3 n4 n5 line
    rw [← haeq] at hX
    show refineVersion (cleanupVer a.available_version) ≠ []
    rw [hX, cleanupVer_of_norm]
    exact refineVersion_ne_nil _ ((normClean_props X).2.2 (hX ▸ hav))
  · intro apps a hav
    unfold upgradeFilterPass
    rw [List.filterMap_cons]
    simp [hav]

/-- Witness for C10 at a concrete three-line upgrade table. -/
theorem upgrade_available_version_nonempty_witness :
    (⟨pstr "Foo", pstr "Foo.Bar", pstr "1.0", pstr "2.0"⟩ : UpgradeRecord).available_version ≠ [] :=
  (upgrade_available_version_nonempty
      (pstr "Name    Id      Version  Available  Source\n----\nFoo     Foo.Bar 1.0      2.0        winget")).1
    ⟨pstr "Foo", pstr "Foo.Bar", pstr "1.0", pstr "2.0"⟩ (by decide)

theorem refineVersion_eq_spec (v : List Char) (hne : pySplitWS v ≠ []) :
    refineVersion v = specRefineVersion v := by
  have hE : (pySplitWS v).isEmpty = false := by
    simpa [List.isEmpty_iff] using hne
  simp only [refineVersion, specRefineVersion, hE, Bool.false_eq_true, if_false]
  cases hf : (pySplitWS v).find? isVersionToken with
  | some p => rfl
  | none =>
    cases hv : pySplitWS v with
    | nil => exact absurd hv hne
    | cons p rest => simp

/-- C7: every version field of an output record is produced by the
claimed token-selection algorithm (`specRefineVersion`, which follows
the spec's words, including the `"Unknown"` fallback) applied to the
cleaned accumulated field.  The two algorithms differ only on fields
with no tokens, which never pass the filter. -/
theorem version_token_selection (output : List Char) :
    (∀ r ∈ parse_winget_list_output output,
      ∃ raw, listRawRecords output = some raw ∧
        ∃ a ∈ raw, r.name = a.name ∧ r.id = a.id ∧
          r.current_version = specRefineVersion (cleanupVer a.current_version)) ∧
    (∀ r ∈ parse_winget_upgrade_output output,
      ∃ raw, upgradeRawRecords output = some raw ∧
        ∃ a ∈ raw, r.name = a.name ∧ r.id = a.id ∧
          r.current_version = specRefineVersion (cleanupVer a.current_version) ∧
          r.available_version = specRefineVersion (cleanupVer a.available_version)) := by
  constructor
  · intro r hr
    obtain ⟨raw, hraw⟩ := listRawRecords_eq_some output
    rw [parse_list_eq_filterPass output raw hraw] at hr
    obtain ⟨a, ha, hc, rfl⟩ := mem_listFilterPass.mp hr
    refine ⟨raw, hraw, a, ha, rfl, rfl, ?_⟩
    simp only [Bool.and_eq_true, Bool.not_eq_true', decide_eq_true_iff] at hc
    have hcv : a.current_version ≠ [] := by
      intro hnil
      simp [hnil] at hc
    obtain ⟨n1, n2, n3, n4, line, haeq⟩ := listRawRecords_shape output raw hraw a ha
    obtain ⟨X, hX⟩ := mkListRecord_cv_shape n1 n2 n3 n4 line
    rw [← haeq] at hX
    show refineVersion (cleanupVer a.current_version) =
      specRefineVersion (cleanupVer a.current_version)
    rw [hX, cleanupVer_of_norm]
    exact refineVersion_eq_spec _ ((normClean_props X).2.2 (hX ▸ hcv))
  · intro r hr
    obtain ⟨raw, hraw⟩ := upgradeRawRecords_eq_some output
    rw [parse_upgrade_eq_filterPass output raw hraw] at hr
    obtain ⟨a, ha, hc, rfl⟩ := mem_upgradeFilterPass.mp hr
    refine ⟨raw, hraw, a, ha, rfl, rfl, ?_, ?_⟩ <;>
      simp only [Bool.and_eq_true, Bool.not_eq_true', decide_eq_true_iff] at hc
    · have hcv : a.current_version ≠ [] := by
        intro hnil
        simp [hnil] at hc
      obtain ⟨n1, n2, n3, n4, n5, line, haeq⟩ :=
        upgradeRawRecords_shape output raw hraw a ha
      obtain ⟨X, hX⟩ := mkUpgradeRecord_cv_shape n1 n2 n3 n4 n5 line
      rw [← haeq] at hX
      show refineVersion (cleanupVer a.current_version) =
        specRefineVersion (cleanupVer a.current_version)
      rw [hX, cleanupVer_of_norm]
      exact refineVersion_eq_spec _ ((normClean_props X).2.2 (hX ▸ hcv))
    · have hav : a.available_version ≠ [] := by
        intro hnil
        simp [hnil] at hc
      obtain ⟨n1, n2, n3, n4, n5, line, haeq⟩ :=
        upgradeRawRecords_shape output raw hraw a ha
      obtain ⟨X, hX⟩ := mkUpgradeRecord_av_shape n1 n2 n3 n4 n5 line
      rw [← haeq] at hX
      show refineVersion (cleanupVer a.available_version) =
        specRefineVersion (cleanupVer a.available_version)
      rw [hX, cleanupVer_of_norm]
      exact refineVersion_eq_spec _ ((normClean_props X).2.2 (hX ▸ hav))

/-- Witness for C7 at a concrete three-line installed table. -/
theorem version_token_selection_witness :
    ∃ raw, listRawRecords
        (pstr "Name    Id      Version\n----\nFooApp  Foo.App 1.0") = some raw ∧
      ∃ a ∈ raw,
        (⟨pstr "FooApp", pstr "Foo.App", pstr "1.0"⟩ : PackageRecord).name = a.name ∧
        (⟨pstr "FooApp", pstr "Foo.App", pstr "1.0"⟩ : PackageRecord).id = a.id ∧
        (⟨pstr "FooApp", pstr "Foo.App", pstr "1.0"⟩ : PackageRecord).current_version =
          specRefineVersion (cleanupVer a.current_version) :=
  (version_token_selection
      (pstr "Name    Id      Version\n----\nFooApp  Foo.App 1.0")).1
    ⟨pstr "FooApp", pstr "Foo.App", pstr "1.0"⟩ (by decide)

/-! ### Degenerate inputs (claim C8)

The code splits the *stripped* input into lines; the claim speaks about
the lines of the raw input.  The lemmas below show that stripping never
increases the number of lines and that every line of the stripped input
occurs as a contiguous substring of some line of the raw input, which
transfers both conditions of the claim. -/

theorem infixOf_refl (l : List Char) : InfixOf l l :=
  ⟨[], [], by simp⟩

theorem infixOf_trans {a b c : List Char} (h1 : InfixOf a b) (h2 : InfixOf b c) :
    InfixOf a c := by
  obtain ⟨x, y, rfl⟩ := h1
  obtain ⟨u, v, rfl⟩ := h2
  exact ⟨u ++ x, y ++ v, by simp⟩

theorem glue_append (p q : List Char) (ls : List (List Char)) (hq : q ≠ []) :
    glue (p ++ q) ls = glue p (glue q ls) := by
  cases ls with
  | nil =>
    have hq' : q.isEmpty = false := by simpa [List.isEmpty_iff] using hq
    have hpq : (p ++ q).isEmpty = false := by
      simp [List.isEmpty_iff, hq]
    simp [glue, hq', hpq]
  | cons h t => simp [glue]

/-- `splitlinesAux` with accumulator `acc` prepends `acc.reverse` to the
first emitted line. -/
theorem splitlinesAux_glue (s : List Char) :
    ∀ (b : Bool) (acc : List Char),
      splitlinesAux b s acc = glue acc.reverse (splitlinesAux b s []) := by
  induction s with
  | nil =>
    intro b acc
    cases acc with
    | nil => simp [splitlinesAux, glue]
    | cons a r =>
      have h1 : (a :: r).isEmpty = false := rfl
      have h2 : ((a :: r).reverse).isEmpty = false := by
        simp [List.isEmpty_iff]
      simp [splitlinesAux, glue, h1, h2]
  | cons c rest ih =>
    intro b acc
    show splitlinesAux b (c :: rest) acc = _
    unfold splitlinesAux
    by_cases h1 : (b && c = '\n') = true
    · rw [if_pos h1, if_pos h1, ih false acc]
    · rw [if_neg h1, if_neg h1]
      by_cases h2 : c = '\r'
      · rw [if_pos h2, if_pos h2]
        simp [glue]
      · rw [if_neg h2, if_neg h2]
        by_cases h3 : isPyLineBoundary c = true
        · rw [if_pos h3, if_pos h3]
          simp [glue]
        · rw [if_neg h3, if_neg h3]
          rw [ih false (c :: acc), ih false [c]]
          rw [show (c :: acc).reverse = acc.reverse ++ [c] by simp]
          rw [glue_append _ _ _ (by simp)]
          rfl

/-- When the next character is not `'\n'`, the after-CR flag is
irrelevant. -/
theorem splitlinesAux_flag (s : List Char) (acc : List Char)
    (hs : ∀ s2, s ≠ '\n' :: s2) :
    splitlinesAux true s acc = splitlinesAux false s acc := by
  cases s with
  | nil => rfl
  | cons c rest =>
    have hc : c ≠ '\n' := by
      intro h
      exact hs rest (by rw [h])
    unfold splitlinesAux
    have h1 : (true && c = '\n') = false := by simp [hc]
    have h2 : (false && c = '\n') = false := by simp
    rw [h1, h2]

/-- Prepending one character never decreases the line count, and every
line of `s` occurs inside a line of `c :: s`. -/
theorem splitlines_cons (c : Char) (s : List Char) :
    (pySplitlines s).length ≤ (pySplitlines (c :: s)).length ∧
    ∀ l ∈ pySplitlines s, ∃ lp ∈ pySplitlines (c :: s), InfixOf l lp := by
  have hstep : pySplitlines (c :: s) =
      if c = '\r' then [] :: splitlinesAux true s []
      else if isPyLineBoundary c then [] :: pySplitlines s
      else splitlinesAux false s [c] := by
    unfold pySplitlines
    rw [splitlinesAux.eq_def]
    simp only [Bool.false_and, Bool.false_eq_true, if_false, List.reverse_nil]
  by_cases h2 : c = '\r'
  · rw [hstep, if_pos h2]
    rcases hs : s with - | ⟨d, rest⟩
    · constructor
      · simp [pySplitlines, splitlinesAux]
      · intro l hl
        simp [pySplitlines, splitlinesAux] at hl
    · by_cases hd : d = '\n'
      · subst hd
        have htrue : splitlinesAux true ('\n' :: rest) [] = pySplitlines rest := by
          unfold pySplitlines
          rw [splitlinesAux.eq_def]
          simp
        have hfalse : pySplitlines ('\n' :: rest) = [] :: pySplitlines rest := by
          unfold pySplitlines
          rw [splitlinesAux.eq_def]
          simp [isPyLineBoundary]
        rw [htrue, hfalse]
        constructor
        · simp
        · intro l hl
          rcases List.mem_cons.mp hl with rfl | hl2
          · exact ⟨[], List.mem_cons_self _ _, infixOf_refl []⟩
          · exact ⟨l, List.mem_cons_of_mem _ hl2, infixOf_refl l⟩
      · have hflag := splitlinesAux_flag (d :: rest) []
          (fun s2 h => hd (List.cons_eq_cons.mp h).1)
        rw [hflag]
        constructor
        · simp [pySplitlines]
        · intro l hl
          exact ⟨l, List.mem_cons_of_mem _ hl, infixOf_refl l⟩
  · rw [hstep, if_neg h2]
    by_cases h3 : isPyLineBoundary c = true
    · rw [if_pos h3]
      constructor
      · simp
      · intro l hl
        exact ⟨l, List.mem_cons_of_mem _ hl, infixOf_refl l⟩
    · rw [if_neg h3]
      rw [show splitlinesAux false s [c] = glue [c] (pySplitlines s) from
        splitlinesAux_glue s false [c]]
      rcases hx : pySplitlines s with - | ⟨h, t⟩
      · constructor
        · simp [glue]
        · intro l hl
          simp at hl
      · constructor
        · simp [glue]
        · intro l hl
          rcases List.mem_cons.mp hl with rfl | hl2
          · exact ⟨c :: l, by simp [glue], ⟨[c], [], by simp⟩⟩
          · exact ⟨l, by simp [glue, hl2], infixOf_refl l⟩

theorem splitlinesAux_nil (b : Bool) (acc : List Char) :
    splitlinesAux b [] acc = if acc.isEmpty then [] else [acc.reverse] :=
  rfl

theorem splitlinesAux_cons (b : Bool) (c : Char) (rest acc : List Char) :
    splitlinesAux b (c :: rest) acc =
      if b && c = '\n' then splitlinesAux false rest acc
      else if c = '\r' then acc.reverse :: splitlinesAux true rest []
      else if isPyLineBoundary c then acc.reverse :: splitlinesAux false rest []
      else splitlinesAux false rest (c :: acc) :=
  rfl

theorem splitlines_dropWhile (s : List Char) :
    (pySplitlines (s.dropWhile isPySpace)).length ≤ (pySplitlines s).length ∧
    ∀ l ∈ pySplitlines (s.dropWhile isPySpace), ∃ lp ∈ pySplitlines s, InfixOf l lp := by
  induction s with
  | nil =>
    constructor
    · simp
    · intro l hl
      exact ⟨l, by simpa using hl, infixOf_refl l⟩
  | cons c rest ih =>
    by_cases hc : isPySpace c = true
    · rw [List.dropWhile_cons, if_pos hc]
      have hcons := splitlines_cons c rest
      constructor
      · exact le_trans ih.1 hcons.1
      · intro l hl
        obtain ⟨lm, hlm, h1⟩ := ih.2 l hl
        obtain ⟨lp, hlp, h2⟩ := hcons.2 lm hlm
        exact ⟨lp, hlp, infixOf_trans h1 h2⟩
    · rw [List.dropWhile_cons, if_neg hc]
      constructor
      · exact le_refl _
      · intro l hl
        exact ⟨l, hl, infixOf_refl l⟩

/-- Appending a suffix never decreases the emitted line count, and every
line of `t` occurs inside a line of `t ++ w`. -/
theorem splitlinesAux_append (t : List Char) :
    ∀ (b : Bool) (acc w : List Char),
      (splitlinesAux b t acc).length ≤ (splitlinesAux b (t ++ w) acc).length ∧
      ∀ l ∈ splitlinesAux b t acc, ∃ lp ∈ splitlinesAux b (t ++ w) acc, InfixOf l lp := by
  induction t with
  | nil =>
    intro b acc w
    rw [List.nil_append, splitlinesAux_nil]
    by_cases hacc : acc.isEmpty = true
    · rw [if_pos hacc]
      constructor
      · simp
      · intro l hl
        simp at hl
    · rw [if_neg hacc]
      have hne : acc ≠ [] := by simpa [List.isEmpty_iff] using hacc
      rw [splitlinesAux_glue w b acc]
      rcases hX : splitlinesAux b w [] with - | ⟨h, t'⟩
      · have hg : glue acc.reverse [] = [acc.reverse] := by
          have : (acc.reverse).isEmpty = false := by
            simp [List.isEmpty_iff, hne]
          simp [glue, this]
        rw [hg]
        constructor
        · simp
        · intro l hl
          rw [List.mem_singleton.mp hl]
          exact ⟨acc.reverse, by simp, infixOf_refl _⟩
      · have hg : glue acc.reverse (h :: t') = (acc.reverse ++ h) :: t' := rfl
        rw [hg]
        constructor
        · simp
        · intro l hl
          rw [List.mem_singleton.mp hl]
          exact ⟨acc.reverse ++ h, by simp, ⟨[], h, by simp⟩⟩
  | cons c rest ih =>
    intro b acc w
    rw [List.cons_append, splitlinesAux_cons, splitlinesAux_cons]
    by_cases h1 : (b && c = '\n') = true
    · rw [if_pos h1, if_pos h1]
      exact ih false acc w
    · rw [if_neg h1, if_neg h1]
      by_cases hcr : c = '\r'
      · rw [if_pos hcr, if_pos hcr]
        have hrec := ih true [] w
        constructor
        · simpa using Nat.succ_le_succ hrec.1
        · intro l hl
          rcases List.mem_cons.mp hl with rfl | hl2
          · exact ⟨acc.reverse, List.mem_cons_self _ _, infixOf_refl _⟩
          · obtain ⟨lp, hlp, hinf⟩ := hrec.2 l hl2
            exact ⟨lp, List.mem_cons_of_mem _ hlp, hinf⟩
      · rw [if_neg hcr, if_neg hcr]
        by_cases hb : isPyLineBoundary c = true
        · rw [if_pos hb, if_pos hb]
          have hrec := ih false [] w
          constructor
          · simpa using Nat.succ_le_succ hrec.1
          · intro l hl
            rcases List.mem_cons.mp hl with rfl | hl2
            · exact ⟨acc.reverse, List.mem_cons_self _ _, infixOf_refl _⟩
            · obtain ⟨lp, hlp, hinf⟩ := hrec.2 l hl2
              exact ⟨lp, List.mem_cons_of_mem _ hlp, hinf⟩
        · rw [if_neg hb, if_neg hb]
          exact ih false (c :: acc) w

/-- The whitespace-dropped input is the stripped input followed by a
(whitespace) suffix. -/
theorem strip_decomp (s : List Char) :
    ∃ w, s.dropWhile isPySpace = pyStrip s ++ w := by
  refine ⟨(List.takeWhile isPySpace (s.dropWhile isPySpace).reverse).reverse, ?_⟩
  unfold pyStrip
  calc s.dropWhile isPySpace
      = ((s.dropWhile isPySpace).reverse).reverse := by rw [List.reverse_reverse]
    _ = (List.takeWhile isPySpace (s.dropWhile isPySpace).reverse ++
          List.dropWhile isPySpace (s.dropWhile isPySpace).reverse).reverse := by
        rw [List.takeWhile_append_dropWhile]
    _ = _ := by rw [List.reverse_append]

/-- Stripping never increases the line count, and every line of the
stripped input occurs inside a line of the raw input. -/
theorem splitlines_strip (s : List Char) :
    (pySplitlines (pyStrip s)).length ≤ (pySplitlines s).length ∧
    ∀ l ∈ pySplitlines (pyStrip s), ∃ lp ∈ pySplitlines s, InfixOf l lp := by
  obtain ⟨w, hw⟩ := strip_decomp s
  have happ := splitlinesAux_append (pyStrip s) false [] w
  rw [← hw] at happ
  have hdrop := splitlines_dropWhile s
  constructor
  · exact le_trans happ.1 hdrop.1
  · intro l hl
    obtain ⟨lm, hlm, h1⟩ := happ.2 l hl
    obtain ⟨lp, hlp, h2⟩ := hdrop.2 lm hlm
    exact ⟨lp, hlp, infixOf_trans h1 h2⟩

theorem isPrefOf_iff (p s : List Char) :
    isPrefOf p s = true ↔ ∃ t, s = p ++ t := by
  induction p generalizing s with
  | nil =>
    simp [isPrefOf]
  | cons a ps ih =>
    cases s with
    | nil =>
      constructor
      · intro h
        simp [isPrefOf] at h
      · rintro ⟨t, ht⟩
        simp at ht
    | cons b bs =>
      show (a == b && isPrefOf ps bs) = true ↔ _
      simp only [Bool.and_eq_true, beq_iff_eq, ih]
      constructor
      · rintro ⟨rfl, t, rfl⟩
        exact ⟨t, rfl⟩
      · rintro ⟨t, ht⟩
        injection ht with h1 h2
        exact ⟨h1.symm, t, h2⟩

theorem pyFindAux_isSome_iff (p : List Char) (s : List Char) :
    ∀ i, (pyFindAux p i s).isSome = true ↔ InfixOf p s := by
  induction s with
  | nil =>
    intro i
    show (if p.isEmpty then some i else none).isSome = true ↔ _
    by_cases hp : p.isEmpty = true
    · have hp' : p = [] := by simpa [List.isEmpty_iff] using hp
      subst hp'
      simp [InfixOf]
    · rw [if_neg hp]
      simp only [Option.isSome_none, Bool.false_eq_true, false_iff]
      rintro ⟨a, b, hab⟩
      have hlen := congrArg List.length hab
      simp at hlen
      have hp0 : p.length = 0 := by omega
      exact hp (by simp [List.isEmpty_iff, List.length_eq_zero.mp hp0])
  | cons c rest ih =>
    intro i
    have hstep : pyFindAux p i (c :: rest) =
        if isPrefOf p (c :: rest) then some i else pyFindAux p (i + 1) rest := by
      rfl
    rw [hstep]
    by_cases hpre : isPrefOf p (c :: rest) = true
    · rw [if_pos hpre]
      simp only [Option.isSome_some, true_iff]
      obtain ⟨t, ht⟩ := (isPrefOf_iff p (c :: rest)).mp hpre
      exact ⟨[], t, by simp [ht]⟩
    · rw [if_neg hpre, ih (i + 1)]
      constructor
      · rintro ⟨a, b, rfl⟩
        exact ⟨c :: a, b, rfl⟩
      · rintro ⟨a, b, hab⟩
        cases a with
        | nil =>
          exact absurd ((isPrefOf_iff p (c :: rest)).mpr ⟨b, by simpa using hab⟩) hpre
        | cons x xs =>
          injection hab with h1 h2
          exact ⟨xs, b, h2⟩

theorem pyContains_iff_infixOf (s p : List Char) :
    pyContains s p = true ↔ InfixOf p s := by
  unfold pyContains
  exact pyFindAux_isSome_iff p s 0

theorem isHeaderLine_iff_infixOf (l : List Char) :
    isHeaderLine l = true ↔
      InfixOf (pstr "Name") l ∧ InfixOf (pstr "Id") l ∧ InfixOf (pstr "Version") l := by
  unfold isHeaderLine
  simp [Bool.and_eq_true, pyContains_iff_infixOf, and_assoc]

theorem findHeader_eq_none (ls : List (List Char)) :
    ∀ i, (∀ l ∈ ls, isHeaderLine l = false) → findHeader i ls = none := by
  induction ls with
  | nil =>
    intro i h
    rfl
  | cons l rest ih =>
    intro i h
    unfold findHeader
    rw [if_neg (by simp [h l (List.mem_cons_self _ _)])]
    exact ih (i + 1) (fun x hx => h x (List.mem_cons_of_mem _ hx))

/-- C8: on an input with fewer than 3 lines (the empty string included),
and likewise on an input none of whose lines contains all of `"Name"`,
`"Id"` and `"Version"` as substrings, both parsers return the empty
list rather than failing. -/
theorem parse_degenerate_inputs (output : List Char) :
    ((pySplitlines output).length < 3 →
      parse_winget_list_output output = [] ∧
      parse_winget_upgrade_output output = []) ∧
    ((∀ l ∈ pySplitlines output,
        ¬(InfixOf (pstr "Name") l ∧ InfixOf (pstr "Id") l ∧
          InfixOf (pstr "Version") l)) →
      parse_winget_list_output output = [] ∧
      parse_winget_upgrade_output output = []) := by
  have hstrip := splitlines_strip output
  constructor
  · intro hlen
    have hst : (pySplitlines (pyStrip output)).length < 3 :=
      lt_of_le_of_lt hstrip.1 hlen
    constructor
    · simp [parse_winget_list_output, parseWingetListChecked, listRawRecords,
        hst, listFilterPass]
    · simp [parse_winget_upgrade_output, parseWingetUpgradeChecked,
        upgradeRawRecords, hst, upgradeFilterPass]
  · intro hhdr
    have hnohl : ∀ l ∈ pySplitlines (pyStrip output), isHeaderLine l = false := by
      intro l hl
      cases hhl : isHeaderLine l
      · rfl
      · exfalso
        obtain ⟨lp, hlp, hinf⟩ := hstrip.2 l hl
        obtain ⟨h1, h2, h3⟩ := (isHeaderLine_iff_infixOf l).mp hhl
        exact hhdr lp hlp
          ⟨infixOf_trans h1 hinf, infixOf_trans h2 hinf, infixOf_trans h3 hinf⟩
    have hnone := findHeader_eq_none (pySplitlines (pyStrip output)) 0 hnohl
    by_cases hst : (pySplitlines (pyStrip output)).length < 3
    · constructor
      · simp [parse_winget_list_output, parseWingetListChecked, listRawRecords,
          hst, listFilterPass]
      · simp [parse_winget_upgrade_output, parseWingetUpgradeChecked,
          upgradeRawRecords, hst, upgradeFilterPass]
    · constructor
      · simp [parse_winget_list_output, parseWingetListChecked, listRawRecords,
          hst, hnone, listFilterPass]
      · simp [parse_winget_upgrade_output, parseWingetUpgradeChecked,
          upgradeRawRecords, hst, hnone, upgradeFilterPass]

/-- Witness for C8: the empty string (0 lines) and a four-line input
with no header line both parse to the empty list. -/
theorem parse_degenerate_inputs_witness :
    (parse_winget_list_output (pstr "") = [] ∧
      parse_winget_upgrade_output (pstr "") = []) ∧
    (parse_winget_list_output (pstr "a\nbb\nccc\ndd") = [] ∧
      parse_winget_upgrade_output (pstr "a\nbb\nccc\ndd") = []) := by
  constructor
  · exact (parse_degenerate_inputs (pstr "")).1 (by decide)
  · refine (parse_degenerate_inputs (pstr "a\nbb\nccc\ndd")).2 ?_
    intro l hl hcon
    have hhl : isHeaderLine l = true := (isHeaderLine_iff_infixOf l).mpr hcon
    have hall : ∀ m ∈ pySplitlines (pstr "a\nbb\nccc\ndd"), isHeaderLine m = false := by
      decide
    rw [hall l hl] at hhl
    exact Bool.false_ne_true hhl

end PatchSystem
